import Mathlib

/-!
Shallow embedding of the BIP-39 word-order recovery tool (src/main.rs).

The core logic embedded here:
- `detect_language` : the BIP-39 wordlist language auto-detection heuristic;
- `resolve_language` : how `main` picks the Language (auto-detect with English fallback);
- `resolve_address_type` : scheme resolution from flags or address-text prefix;
- `AddressType.derivation_path` : the per-scheme derivation path template;
- `derive_address` / `search_loop` / `search_permutations` : the permutation
  search engine and mnemonic-to-address pipeline.

External collaborators (the bip39 / bitcoin / secp256k1 crates) are modelled
as parameters: the per-language word lists as a function `Language → List String`,
and the cryptographic primitives as a `CryptoOps` record of pure, possibly
fallible functions, exactly mirroring the call shapes in the source.
-/

namespace BruteForce

/-- The closed set of supported BIP-39 wordlist languages (bip39 crate). -/
inductive Language where
  | english
  | portuguese
  | spanish
  | french
  | italian
  | czech
  | korean
  | japanese
  | simplifiedChinese
  | traditionalChinese
deriving DecidableEq, Repr

/-- The fixed array of languages probed by `detect_language` (src/main.rs lines 213-224), in source order. -/
def detect_language_order : List Language :=
  [Language.english, Language.portuguese, Language.spanish, Language.french,
   Language.italian, Language.czech, Language.korean, Language.japanese,
   Language.simplifiedChinese, Language.traditionalChinese]

/-- Model of Rust `str::eq_ignore_ascii_case`: equality after ASCII case folding
(Lean `Char.toLower` lowercases exactly the ASCII uppercase range). -/
def eq_ignore_ascii_case (a b : String) : Bool :=
  a.data.map Char.toLower == b.data.map Char.toLower

/-- Test whether `word` occurs case-insensitively in `wordlist`
(the `wordlist.iter().any(|w| w.eq_ignore_ascii_case(word))` check, line 238). -/
def word_matches (wordlist : List String) (word : String) : Bool :=
  wordlist.any fun w => eq_ignore_ascii_case w word

/-- The `valid_count` computed for one language in `detect_language` (lines 231-241):
how many input words case-insensitively match a member of that language word list.
`wl` supplies each language word list (external data owned by the bip39 crate). -/
def language_score (wl : Language → List String) (words : List String)
    (lang : Language) : Nat :=
  words.countP fun word => word_matches (wl lang) word

/-- The loop body of `detect_language` (lines 230-253): walk the language list
carrying the best language and best count; update the best only on a strictly
greater score; return immediately on a perfect score; at the end return the
best language only when its score reaches half the word count. -/
def detect_go (wl : Language → List String) (words : List String) :
    List Language → Option Language → Nat → Option Language
  | [], best_language, best_count =>
    if words.length / 2 ≤ best_count then best_language else none
  | lang :: rest, best_language, best_count =>
    let valid_count := language_score wl words lang
    let best_language2 :=
      if best_count < valid_count then some lang else best_language
    let best_count2 :=
      if best_count < valid_count then valid_count else best_count
    if valid_count = words.length then some lang
    else detect_go wl words rest best_language2 best_count2

/-- Embedding of `detect_language` (src/main.rs lines 211-261). -/
def detect_language (wl : Language → List String) (words : List String) :
    Option Language :=
  detect_go wl words detect_language_order none 0

/-- Embedding of `parse_language` (src/main.rs lines 177-194). -/
def parse_language (lang : String) : Except String Language :=
  match lang.toLower with
  | "english" => Except.ok Language.english
  | "portuguese" => Except.ok Language.portuguese
  | "spanish" => Except.ok Language.spanish
  | "french" => Except.ok Language.french
  | "italian" => Except.ok Language.italian
  | "czech" => Except.ok Language.czech
  | "korean" => Except.ok Language.korean
  | "japanese" => Except.ok Language.japanese
  | "chinese-simplified" => Except.ok Language.simplifiedChinese
  | "chinese-traditional" => Except.ok Language.traditionalChinese
  | _ => Except.error ("Unknown language: " ++ lang)

/-- How the resolved language was obtained, mirroring the three informational
println branches of `main` (lines 122-138): auto-detected, silent fallback to
the English default, or explicitly specified by flag. -/
inductive LangChoice where
  | autoDetected
  | defaultFallback
  | specified
deriving DecidableEq, Repr

/-- Embedding of the language-selection block of `main` (src/main.rs lines
122-138): when the language flag is the default string "english", try
auto-detection and fall back to English informationally when detection
returns nothing; otherwise parse the explicit flag (which can fail). -/
def resolve_language (wl : Language → List String) (language_arg : String)
    (words : List String) : Except String (Language × LangChoice) :=
  if language_arg = "english" then
    match detect_language wl words with
    | some detected_lang => Except.ok (detected_lang, LangChoice.autoDetected)
    | none => Except.ok (Language.english, LangChoice.defaultFallback)
  else
    match parse_language language_arg with
    | Except.ok lang => Except.ok (lang, LangChoice.specified)
    | Except.error e => Except.error e

/-- The three derivation/address schemes (src/main.rs lines 45-50). -/
inductive AddressType where
  | bip44
  | bip49
  | bip84
deriving DecidableEq, Repr

/-- Embedding of `AddressType::derivation_path` (src/main.rs lines 53-59).
The `\x27` escapes are ASCII apostrophes marking hardened path segments. -/
def AddressType.derivation_path : AddressType → Nat → String
  | AddressType.bip44, index => "m/44\x27/0\x27/0\x27/0/" ++ toString index
  | AddressType.bip49, index => "m/49\x27/0\x27/0\x27/0/" ++ toString index
  | AddressType.bip84, index => "m/84\x27/0\x27/0\x27/0/" ++ toString index

/-- Model of Rust `str::starts_with` on a string prefix. -/
def starts_with (s p : String) : Bool :=
  p.data.isPrefixOf s.data

/-- Embedding of the address-type resolution block of `main` (src/main.rs
lines 92-114): explicit flags take precedence; otherwise the literal prefix
of the raw address text decides; with no flag and no recognized prefix the
run fails (modelled as `none`, the AmbiguousScheme bail-out at line 110). -/
def resolve_address_type (bip44 bip49 bip84 : Bool) (target_address : String) :
    Option AddressType :=
  if bip84 then some AddressType.bip84
  else if bip49 then some AddressType.bip49
  else if bip44 then some AddressType.bip44
  else if starts_with target_address "bc1" then some AddressType.bip84
  else if starts_with target_address "3" then some AddressType.bip49
  else if starts_with target_address "1" then some AddressType.bip44
  else none

/-- The network parameter; the tool only ever passes `Network::Bitcoin` (mainnet). -/
inductive Network where
  | bitcoin
deriving DecidableEq, Repr

/-- The external cryptographic collaborators used by `search_permutations`,
as pure functions over abstract carrier types:
`M` mnemonics, `S` seeds, `X` extended private keys, `D` parsed derivation
paths, `P` child private keys, `K` public keys, `C` compressed public keys,
`A` addresses. Each field mirrors one external call in src/main.rs. -/
structure CryptoOps (M S X D P K C A : Type) where
  parse_in_normalized : Language → String → Option M
  to_seed : M → String → S
  new_master : Network → S → Except String X
  derive_priv : X → D → Except String X
  private_key : X → P
  public_key : P → K
  serialize : K → List Nat
  from_slice : List Nat → Except String C
  p2pkh : K → Network → A
  p2shwpkh : C → Network → A
  p2wpkh : C → Network → A
  path_from_str : String → Except String D

/-- The outcome the tool reports: either the found report printed at
src/main.rs lines 328-339 (permutation index, phrase, derived address),
or the not-found outcome (`Ok(false)` and the final message in `main`). -/
inductive SearchOutcome (A : Type) where
  | found (trial_index : Nat) (phrase : String) (address : A)
  | notFound
deriving DecidableEq, Repr

section Search

variable {M S X D P K C A : Type}

/-- The body of one trial of the search loop (src/main.rs lines 290-325):
parse the phrase as a mnemonic (failure is a skip, modelled `ok none`),
derive the seed with the empty passphrase, the master key for mainnet, the
child key along the path, its public key, and encode the address for the
scheme. The `new_master`, `derive_priv` and `from_slice` failures propagate
as errors (the `?` operators in the source), aborting the whole run. -/
def derive_address (ops : CryptoOps M S X D P K C A) (language : Language)
    (address_type : AddressType) (path : D) (phrase : String) :
    Except String (Option A) :=
  match ops.parse_in_normalized language phrase with
  | none => Except.ok none
  | some mnemonic =>
    let seed := ops.to_seed mnemonic ""
    match ops.new_master Network.bitcoin seed with
    | Except.error e => Except.error e
    | Except.ok master_xprv =>
      match ops.derive_priv master_xprv path with
      | Except.error e => Except.error e
      | Except.ok child_xprv =>
        let child_pub_key := ops.public_key (ops.private_key child_xprv)
        match address_type with
        | AddressType.bip44 =>
          Except.ok (some (ops.p2pkh child_pub_key Network.bitcoin))
        | AddressType.bip49 =>
          match ops.from_slice (ops.serialize child_pub_key) with
          | Except.error e => Except.error e
          | Except.ok compressed =>
            Except.ok (some (ops.p2shwpkh compressed Network.bitcoin))
        | AddressType.bip84 =>
          match ops.from_slice (ops.serialize child_pub_key) with
          | Except.error e => Except.error e
          | Except.ok compressed =>
            Except.ok (some (ops.p2wpkh compressed Network.bitcoin))

/-- The enumeration loop of `search_permutations` (src/main.rs lines 279-341)
over an explicit list of remaining orderings, carrying the enumerate index
`i`. An ordering whose trial skips advances to the next with `i + 1`; an
address equal to the target returns the found report; an error aborts. -/
def search_loop [DecidableEq A] (ops : CryptoOps M S X D P K C A)
    (language : Language) (address_type : AddressType) (path : D)
    (target : A) : List (List String) → Nat → Except String (SearchOutcome A)
  | [], _ => Except.ok SearchOutcome.notFound
  | perm :: rest, i =>
    let phrase := String.intercalate " " perm
    match derive_address ops language address_type path phrase with
    | Except.error e => Except.error e
    | Except.ok none => search_loop ops language address_type path target rest (i + 1)
    | Except.ok (some addr) =>
      if addr = target then Except.ok (SearchOutcome.found i phrase addr)
      else search_loop ops language address_type path target rest (i + 1)

/-- One selection step of lexicographic permutation enumeration: all ways to
pick one element of the list (in position order) paired with the remaining
elements in their original relative order. -/
def selects : List α → List (α × List α)
  | [] => []
  | x :: xs => (x, xs) :: (selects xs).map fun p => (p.1, x :: p.2)

/-- Fuelled lexicographic permutation enumeration: with fuel `n` equal to the
list length this produces, in order, exactly the sequence of permutations the
itertools `permutations(len)` adaptor yields (lexicographic in the positions
of the input). -/
def lexPermsAux : Nat → List α → List (List α)
  | 0, _ => [[]]
  | n + 1, l => (selects l).flatMap fun p => (lexPermsAux n p.2).map (p.1 :: ·)

/-- The full permutation sequence of `words` in itertools emission order
(`words.iter().cloned().permutations(words.len())`, src/main.rs lines 279-283). -/
def lexPerms (l : List α) : List (List α) :=
  lexPermsAux l.length l

/-- Embedding of `search_permutations` (src/main.rs lines 263-344): parse the
derivation path for the scheme and index (failure aborts before enumeration),
then run the trial loop over the first `max_permutations` orderings. -/
def search_permutations [DecidableEq A] (ops : CryptoOps M S X D P K C A)
    (words : List String) (target : A) (max_permutations : Nat)
    (language : Language) (address_type : AddressType)
    (derivation_index : Nat) : Except String (SearchOutcome A) :=
  match ops.path_from_str (address_type.derivation_path derivation_index) with
  | Except.error _ => Except.error "Failed to parse derivation path"
  | Except.ok derivation_path =>
    search_loop ops language address_type derivation_path target
      ((lexPerms words).take max_permutations) 0

end Search

/-- Spec-side definition: the BIP purpose number carried by each scheme
(44, 49, 84), following the specification text for 4.2. -/
def scheme_purpose : AddressType → Nat
  | AddressType.bip44 => 44
  | AddressType.bip49 => 49
  | AddressType.bip84 => 84

/-- Spec-side definition: the path template written in the specification,
literally `m/{purpose}h/0h/0h/0/{index}` with `h` the hardening apostrophe
(`\x27`), to be compared against `AddressType.derivation_path`. -/
def spec_path_template (purpose : Nat) (index : Nat) : String :=
  "m/" ++ toString purpose ++ "\x27/0\x27/0\x27/0/" ++ toString index

section Reference

variable {M S X D P K C A : Type}

/-- Spec-side definition: the address-synthesis rule of the specification for
4.4 step 6, as a function of the child public key — Legacy is the P2PKH
encoding of the public key, WrappedSegwit the P2SH-wrapped-P2WPKH encoding of
the compressed key, NativeSegwit the P2WPKH (Bech32) encoding of the
compressed key (compression via `from_slice` on the serialized key, which may
fail). -/
def reference_address (ops : CryptoOps M S X D P K C A)
    (scheme : AddressType) (pubkey : K) : Except String A :=
  match scheme with
  | AddressType.bip44 => Except.ok (ops.p2pkh pubkey Network.bitcoin)
  | AddressType.bip49 =>
    (ops.from_slice (ops.serialize pubkey)).map fun c =>
      ops.p2shwpkh c Network.bitcoin
  | AddressType.bip84 =>
    (ops.from_slice (ops.serialize pubkey)).map fun c =>
      ops.p2wpkh c Network.bitcoin

end Reference

/-- A concrete all-succeeding instance of the external collaborators, for
evaluating the engine on concrete inputs: every phrase parses as a mnemonic
and every scheme encodes to a fixed address string. -/
def ops_base : CryptoOps Nat Nat Nat Nat Nat Nat Nat String where
  parse_in_normalized := fun _ _ => some 0
  to_seed := fun m _ => m
  new_master := fun _ s => Except.ok s
  derive_priv := fun x _ => Except.ok x
  private_key := fun x => x
  public_key := fun p => p
  serialize := fun k => [k]
  from_slice := fun bs => Except.ok (bs.headD 0)
  p2pkh := fun _ _ => "ADDR44"
  p2shwpkh := fun _ _ => "ADDR49"
  p2wpkh := fun _ _ => "ADDR84"
  path_from_str := fun _ => Except.ok 0

/-- A concrete instance whose per-key child derivation always fails, as the
elliptic-curve library may: `derive_priv` reports an error on every trial. -/
def ops_fail : CryptoOps Nat Nat Nat Nat Nat Nat Nat String :=
  { ops_base with derive_priv := fun _ _ => Except.error "fail" }

/-- A concrete instance where every phrase fails mnemonic validation
(bad checksum or unknown word): `parse_in_normalized` always returns none. -/
def ops_skip : CryptoOps Nat Nat Nat Nat Nat Nat Nat String :=
  { ops_base with parse_in_normalized := fun _ _ => none }

/-! ### Helper lemmas about the search loop -/

section SearchLemmas

variable {M S X D P K C A : Type} [DecidableEq A]
variable (ops : CryptoOps M S X D P K C A) (language : Language)
variable (address_type : AddressType) (path : D) (target : A)

theorem search_loop_skip (perm : List String) (rest : List (List String))
    (i : Nat)
    (h : derive_address ops language address_type path
      (String.intercalate " " perm) = Except.ok none) :
    search_loop ops language address_type path target (perm :: rest) i
      = search_loop ops language address_type path target rest (i + 1) := by
  simp [search_loop, h]

theorem search_loop_error (perm : List String) (rest : List (List String))
    (i : Nat) (e : String)
    (h : derive_address ops language address_type path
      (String.intercalate " " perm) = Except.error e) :
    search_loop ops language address_type path target (perm :: rest) i
      = Except.error e := by
  simp [search_loop, h]

theorem search_loop_all_miss (perms : List (List String)) (i : Nat)
    (h : ∀ perm ∈ perms, ∃ r, derive_address ops language address_type path
      (String.intercalate " " perm) = Except.ok r ∧ r ≠ some target) :
    search_loop ops language address_type path target perms i
      = Except.ok SearchOutcome.notFound := by
  induction perms generalizing i with
  | nil => rfl
  | cons perm rest ih =>
    obtain ⟨r, hr, hne⟩ := h perm (List.mem_cons_self perm rest)
    match r with
    | none =>
      rw [search_loop_skip ops language address_type path target perm rest i hr]
      exact ih (i + 1) (fun p hp => h p (List.mem_cons_of_mem perm hp))
    | some a =>
      have ha : a ≠ target := fun hc => hne (by rw [hc])
      simp only [search_loop, hr, ha, if_false]
      exact ih (i + 1) (fun p hp => h p (List.mem_cons_of_mem perm hp))

theorem search_loop_first_match (pre : List (List String)) (perm : List String)
    (rest : List (List String)) (i : Nat)
    (hpre : ∀ p ∈ pre, ∃ r, derive_address ops language address_type path
      (String.intercalate " " p) = Except.ok r ∧ r ≠ some target)
    (hm : derive_address ops language address_type path
      (String.intercalate " " perm) = Except.ok (some target)) :
    search_loop ops language address_type path target (pre ++ perm :: rest) i
      = Except.ok (SearchOutcome.found (i + pre.length)
          (String.intercalate " " perm) target) := by
  induction pre generalizing i with
  | nil => simp [search_loop, hm]
  | cons q qre ih =>
    obtain ⟨r, hr, hne⟩ := hpre q (List.mem_cons_self q qre)
    have step : search_loop ops language address_type path target
        ((q :: qre) ++ perm :: rest) i
        = search_loop ops language address_type path target
            (qre ++ perm :: rest) (i + 1) := by
      match r with
      | none => simp [search_loop, hr]
      | some a =>
        have ha : a ≠ target := fun hc => hne (by rw [hc])
        simp [search_loop, hr, ha]
    rw [step, ih (i + 1) (fun p hp => hpre p (List.mem_cons_of_mem q hp))]
    have : i + 1 + qre.length = i + (q :: qre).length := by
      simp [List.length_cons]; omega
    rw [this]

theorem search_loop_notFound_tried (perms : List (List String)) (i : Nat)
    (h : search_loop ops language address_type path target perms i
      = Except.ok SearchOutcome.notFound) :
    ∀ perm ∈ perms, ∃ r, derive_address ops language address_type path
      (String.intercalate " " perm) = Except.ok r ∧ r ≠ some target := by
  induction perms generalizing i with
  | nil => intro perm hp; exact absurd hp (List.not_mem_nil perm)
  | cons q rest ih =>
    intro perm hp
    rcases hda : derive_address ops language address_type path
        (String.intercalate " " q) with e | r
    · rw [search_loop_error ops language address_type path target q rest i e hda] at h
      exact absurd h (by simp)
    · match r with
      | none =>
        rw [search_loop_skip ops language address_type path target q rest i hda] at h
        rcases List.mem_cons.mp hp with hq | hrest
        · exact ⟨none, by rw [hq]; exact hda, by simp⟩
        · exact ih (i + 1) h perm hrest
      | some a =>
        by_cases ha : a = target
        · rw [ha] at hda
          simp [search_loop, hda] at h
        · have hstep : search_loop ops language address_type path target
              (q :: rest) i
              = search_loop ops language address_type path target rest (i + 1) := by
            simp [search_loop, hda, ha]
          rw [hstep] at h
          rcases List.mem_cons.mp hp with hq | hrest
          · exact ⟨some a, by rw [hq]; exact hda, by simp [ha]⟩
          · exact ih (i + 1) h perm hrest

end SearchLemmas

/-! ### Helper lemmas about string prefixes -/

theorem starts_with_first (t : String) (c : Char) (cs as : List Char)
    (p : String) (hp : p.data = c :: cs) (ht : t.data = as)
    (h : starts_with t p = true) : ∃ bs, as = c :: bs := by
  unfold starts_with at h
  rw [hp, ht] at h
  cases as with
  | nil => simp [List.isPrefixOf] at h
  | cons b bs =>
    simp [List.isPrefixOf] at h
    exact ⟨bs, by rw [h.1]⟩

/-! ### Helper lemmas about language detection -/

theorem detect_go_perfect (wl : Language → List String) (words : List String)
    (L : Language) (rest : List Language) (best : Option Language) (bc : Nat)
    (hL : language_score wl words L = words.length) :
    detect_go wl words (L :: rest) best bc = some L := by
  simp [detect_go, hL]

theorem detect_go_first_perfect (wl : Language → List String)
    (words : List String) (pre post : List Language) (L : Language)
    (hpre : ∀ p ∈ pre, language_score wl words p ≠ words.length)
    (hL : language_score wl words L = words.length) :
    ∀ best bc, detect_go wl words (pre ++ L :: post) best bc = some L := by
  induction pre with
  | nil => intro best bc; simp [detect_go, hL]
  | cons q qre ih =>
    intro best bc
    have hq := hpre q (List.mem_cons_self q qre)
    simp only [List.cons_append, detect_go, hq, if_false]
    exact ih (fun p hp => hpre p (List.mem_cons_of_mem q hp)) _ _

theorem detect_go_all_low (wl : Language → List String) (words : List String) :
    ∀ (ls : List Language) (best : Option Language) (bc : Nat),
    (∀ l ∈ ls, language_score wl words l < words.length / 2) →
    bc < words.length / 2 →
    detect_go wl words ls best bc = none := by
  intro ls
  induction ls with
  | nil =>
    intro best bc _ hbc
    simp only [detect_go]
    rw [if_neg (by omega)]
  | cons q rest ih =>
    intro best bc h hbc
    have hq := h q (List.mem_cons_self q rest)
    have hqne : language_score wl words q ≠ words.length := by
      have := Nat.div_le_self words.length 2
      omega
    simp only [detect_go, hqne, if_false]
    by_cases hlt : bc < language_score wl words q
    · simp only [hlt, if_true]
      exact ih _ _ (fun l hl => h l (List.mem_cons_of_mem q hl)) hq
    · simp only [hlt, if_false]
      exact ih _ _ (fun l hl => h l (List.mem_cons_of_mem q hl)) hbc

theorem detect_go_keep (wl : Language → List String) (words : List String)
    (L : Language) :
    ∀ (post : List Language) (bc : Nat),
    (∀ q ∈ post, language_score wl words q ≤ bc) →
    (∀ q ∈ post, language_score wl words q ≠ words.length) →
    words.length / 2 ≤ bc →
    detect_go wl words post (some L) bc = some L := by
  intro post
  induction post with
  | nil =>
    intro bc _ _ hbc
    simp only [detect_go]
    rw [if_pos hbc]
  | cons q rest ih =>
    intro bc hle hne hbc
    have hq := hle q (List.mem_cons_self q rest)
    have hqne := hne q (List.mem_cons_self q rest)
    have hnlt : ¬ bc < language_score wl words q := by omega
    simp only [detect_go, hqne, if_false, hnlt]
    exact ih bc (fun l hl => hle l (List.mem_cons_of_mem q hl))
      (fun l hl => hne l (List.mem_cons_of_mem q hl)) hbc

theorem detect_go_climb (wl : Language → List String) (words : List String)
    (L : Language) (post : List Language)
    (hLne : language_score wl words L ≠ words.length)
    (hpost : ∀ q ∈ post, language_score wl words q ≤ language_score wl words L)
    (hpostne : ∀ q ∈ post, language_score wl words q ≠ words.length)
    (hhalf : words.length / 2 ≤ language_score wl words L) :
    ∀ (pre : List Language) (best : Option Language) (bc : Nat),
    bc < language_score wl words L →
    (∀ p ∈ pre, language_score wl words p < language_score wl words L) →
    (∀ p ∈ pre, language_score wl words p ≠ words.length) →
    detect_go wl words (pre ++ L :: post) best bc = some L := by
  intro pre
  induction pre with
  | nil =>
    intro best bc hbc _ _
    simp only [List.nil_append, detect_go, hLne, if_false, hbc, if_true]
    exact detect_go_keep wl words L post (language_score wl words L)
      hpost hpostne hhalf
  | cons q qre ih =>
    intro best bc hbc hlt hne
    have hq := hlt q (List.mem_cons_self q qre)
    have hqne := hne q (List.mem_cons_self q qre)
    simp only [List.cons_append, detect_go, hqne, if_false]
    by_cases h2 : bc < language_score wl words q
    · simp only [h2, if_true]
      exact ih _ _ hq (fun p hp => hlt p (List.mem_cons_of_mem q hp))
        (fun p hp => hne p (List.mem_cons_of_mem q hp))
    · simp only [h2, if_false]
      exact ih _ _ hbc (fun p hp => hlt p (List.mem_cons_of_mem q hp))
        (fun p hp => hne p (List.mem_cons_of_mem q hp))

/-! ### Helper lemmas about the permutation enumeration -/

theorem selects_length {α : Type} (l : List α) :
    (selects l).length = l.length := by
  induction l with
  | nil => rfl
  | cons x xs ih => simp [selects, ih]

theorem selects_mem_snd_length {α : Type} (l : List α) :
    ∀ p ∈ selects l, p.2.length + 1 = l.length := by
  induction l with
  | nil => intro p hp; exact absurd hp (List.not_mem_nil p)
  | cons x xs ih =>
    intro p hp
    rcases List.mem_cons.mp hp with h | h
    · simp [h]
    · obtain ⟨q, hq, rfl⟩ := List.mem_map.mp h
      have := ih q hq
      simp only [List.length_cons]
      omega

theorem selects_mem_snd_sublist {α : Type} (l : List α) :
    ∀ p ∈ selects l, p.2.Sublist l := by
  induction l with
  | nil => intro p hp; exact absurd hp (List.not_mem_nil p)
  | cons x xs ih =>
    intro p hp
    rcases List.mem_cons.mp hp with h | h
    · rw [h]; exact List.sublist_cons_self x xs
    · obtain ⟨q, hq, rfl⟩ := List.mem_map.mp h
      exact List.Sublist.cons₂ x (ih q hq)

theorem selects_map_fst {α : Type} (l : List α) :
    (selects l).map Prod.fst = l := by
  induction l with
  | nil => rfl
  | cons x xs ih => simp [selects, List.map_map, Function.comp_def, ih]

theorem sum_map_const_nat {α : Type} (l : List α) (c : Nat) :
    (l.map fun _ => c).sum = l.length * c := by
  induction l with
  | nil => simp
  | cons x xs ih => simp [ih, Nat.succ_mul, Nat.add_comm]

theorem lexPermsAux_length {α : Type} :
    ∀ (n : Nat) (l : List α), l.length = n →
    (lexPermsAux n l).length = n.factorial := by
  intro n
  induction n with
  | zero => intro l _; rfl
  | succ n ih =>
    intro l hl
    rw [lexPermsAux, List.length_flatMap]
    simp only [Function.comp_def]
    have hmap : (selects l).map (fun p =>
        ((lexPermsAux n p.2).map (p.1 :: ·)).length)
        = (selects l).map fun _ => n.factorial := by
      apply List.map_congr_left
      intro p hp
      rw [List.length_map]
      have := selects_mem_snd_length l p hp
      exact ih p.2 (by omega)
    rw [hmap, sum_map_const_nat, selects_length, hl, Nat.factorial_succ]

theorem lexPermsAux_nodup {α : Type} :
    ∀ (n : Nat) (l : List α), l.length = n → l.Nodup →
    (lexPermsAux n l).Nodup := by
  intro n
  induction n with
  | zero => intro l _ _; simp [lexPermsAux]
  | succ n ih =>
    intro l hl hnd
    rw [lexPermsAux]
    apply List.nodup_flatMap.mpr
    constructor
    · intro p hp
      apply List.Nodup.map (List.cons_injective)
      have hlen := selects_mem_snd_length l p hp
      exact ih p.2 (by omega)
        ((selects_mem_snd_sublist l p hp).nodup hnd)
    · have hfst : (selects l).Pairwise fun p q => p.1 ≠ q.1 := by
        have h := hnd
        rw [← selects_map_fst l] at h
        exact (List.pairwise_map.mp h)
      apply hfst.imp
      intro p q hne
      intro a hap haq
      obtain ⟨t, _, hat⟩ := List.mem_map.mp hap
      obtain ⟨u, _, hau⟩ := List.mem_map.mp haq
      rw [← hat] at hau
      injection hau with h1 _
      exact hne h1.symm

theorem selects_map {α β : Type} (f : α → β) (l : List α) :
    selects (l.map f) = (selects l).map fun p => (f p.1, p.2.map f) := by
  induction l with
  | nil => rfl
  | cons x xs ih =>
    simp only [List.map_cons, selects, ih, List.map_map]
    congr 1

theorem lexPermsAux_map {α β : Type} (f : α → β) :
    ∀ (n : Nat) (l : List α),
    lexPermsAux n (l.map f) = (lexPermsAux n l).map (List.map f) := by
  intro n
  induction n with
  | zero => intro l; rfl
  | succ n ih =>
    intro l
    simp only [lexPermsAux, selects_map, List.flatMap_map, List.map_flatMap,
      Function.comp_def]
    have hfun : (fun p : α × List α =>
        (lexPermsAux n (p.2.map f)).map ((f p.1) :: ·))
        = fun p : α × List α =>
          ((lexPermsAux n p.2).map (p.1 :: ·)).map (List.map f) := by
      funext p
      rw [ih p.2, List.map_map, List.map_map]
      rfl
    rw [hfun]

theorem map_getD_range {α : Type} [Inhabited α] (l : List α) (d : α) :
    (List.range l.length).map (fun i => l.getD i d) = l := by
  induction l with
  | nil => rfl
  | cons x xs ih =>
    simp only [List.length_cons, List.range_succ_eq_map, List.map_cons,
      List.getD_cons_zero, List.map_map]
    congr 1

theorem lexPerms_eq_map_range (words : List String) :
    lexPerms words = (lexPerms (List.range words.length)).map
      (fun p => p.map fun i => words.getD i "") := by
  conv_lhs => rw [show words
    = (List.range words.length).map (fun i => words.getD i "") from
      (map_getD_range words "").symm]
  unfold lexPerms
  rw [List.length_map, List.length_range,
    lexPermsAux_map (fun i => words.getD i "") words.length
      (List.range words.length)]

/-! ### Claims -/

/-- C1 (counterexample): with an elliptic-curve collaborator whose per-key
child derivation fails (`ops_fail`), the very first trial of a concrete run
aborts the whole search with that error instead of being skipped: the result
is `Except.error "fail"`, not a continued search ending in `notFound`. -/
theorem c1_counterexample :
    search_permutations ops_fail ["a", "b"] "ADDR44" 10 Language.english
      AddressType.bip44 0 = Except.error "fail" := rfl

/-- C1 (amended): when the elliptic-curve library reports a per-key
derivation failure while walking the derivation path for one candidate
ordering, the search aborts the whole run with that error at once — the
remaining orderings are never visited; only mnemonic-validation failures are
treated as skips. -/
theorem c1_derivation_failure_aborts {M S X D P K C A : Type} [DecidableEq A]
    (ops : CryptoOps M S X D P K C A) (language : Language)
    (address_type : AddressType) (path : D) (target : A)
    (perm : List String) (rest : List (List String)) (i : Nat) (e : String)
    (h : derive_address ops language address_type path
      (String.intercalate " " perm) = Except.error e) :
    search_loop ops language address_type path target (perm :: rest) i
      = Except.error e := by
  simp [search_loop, h]

/-- C1 (witness): the amended claim evaluated at the failing collaborator on
a concrete two-ordering run. -/
theorem c1_derivation_failure_aborts_witness :
    search_loop ops_fail Language.english AddressType.bip44 0 "ADDR44"
      [["a", "b"], ["b", "a"]] 0 = Except.error "fail" :=
  c1_derivation_failure_aborts ops_fail Language.english AddressType.bip44 0
    "ADDR44" ["a", "b"] [["b", "a"]] 0 "fail" rfl

/-- C2: an ordering that fails mnemonic validation (the pipeline returns the
skip outcome `ok none`) never aborts the search: the loop continues with the
next ordering and the trial index still advances by one, so the skipped
ordering consumes one of the at most `trial_cap` produced orderings; the
number of orderings considered never exceeds the cap; and a run all of whose
produced orderings fail validation ends in the not-found outcome rather than
an error. -/
theorem c2_invalid_mnemonic_skipped {M S X D P K C A : Type} [DecidableEq A] :
    (∀ (ops : CryptoOps M S X D P K C A) language address_type path
        (target : A) perm rest i,
      derive_address ops language address_type path
        (String.intercalate " " perm) = Except.ok none →
      search_loop ops language address_type path target (perm :: rest) i
        = search_loop ops language address_type path target rest (i + 1)) ∧
    (∀ (words : List String) (cap : Nat),
      ((lexPerms words).take cap).length ≤ cap) ∧
    (∀ (ops : CryptoOps M S X D P K C A) words (target : A) cap language
        address_type idx path,
      ops.path_from_str (address_type.derivation_path idx) = Except.ok path →
      (∀ perm ∈ (lexPerms words).take cap,
        derive_address ops language address_type path
          (String.intercalate " " perm) = Except.ok none) →
      search_permutations ops words target cap language address_type idx
        = Except.ok SearchOutcome.notFound) := by
  refine ⟨?_, ?_, ?_⟩
  · intro ops language address_type path target perm rest i h
    exact search_loop_skip ops language address_type path target perm rest i h
  · intro words cap
    simp [List.length_take]
  · intro ops words target cap language address_type idx path hpath hall
    unfold search_permutations
    rw [hpath]
    exact search_loop_all_miss ops language address_type path target _ 0
      (fun perm hp => ⟨none, hall perm hp, by simp⟩)

/-- C2 (witness): the conjuncts evaluated on a concrete run in which every
ordering fails mnemonic validation. -/
theorem c2_invalid_mnemonic_skipped_witness :
    search_permutations ops_skip ["a", "b"] "ADDR44" 10 Language.english
      AddressType.bip44 0 = Except.ok SearchOutcome.notFound :=
  (c2_invalid_mnemonic_skipped (M := Nat) (S := Nat) (X := Nat) (D := Nat)
      (P := Nat) (K := Nat) (C := Nat) (A := String)).2.2 ops_skip
    ["a", "b"] "ADDR44" 10 Language.english AddressType.bip44 0 0 rfl
    (by intro perm hp; fin_cases hp <;> rfl)

/-- C6: with no explicit scheme flag set, resolution maps the target address
text by literal prefix — `bc1` to BIP84 (native segwit), `3` to BIP49
(wrapped segwit), `1` to BIP44 (legacy) — and fails (no scheme, the
AmbiguousScheme bail-out) when none of these prefixes is present, never
guessing a scheme. -/
theorem c6_prefix_resolution (t : String) :
    (starts_with t "bc1" = true →
      resolve_address_type false false false t = some AddressType.bip84) ∧
    (starts_with t "3" = true →
      resolve_address_type false false false t = some AddressType.bip49) ∧
    (starts_with t "1" = true →
      resolve_address_type false false false t = some AddressType.bip44) ∧
    (starts_with t "bc1" = false → starts_with t "3" = false →
      starts_with t "1" = false →
      resolve_address_type false false false t = none) := by
  refine ⟨?_, ?_, ?_, ?_⟩
  · intro h
    simp [resolve_address_type, h]
  · intro h
    have hb : starts_with t "bc1" = false := by
      obtain ⟨bs, hbs⟩ := starts_with_first t '3' [] t.data "3" rfl rfl h
      unfold starts_with
      rw [show ("bc1" : String).data = ['b', 'c', '1'] from rfl, hbs]
      simp [List.isPrefixOf]
    simp [resolve_address_type, h, hb]
  · intro h
    have hb : starts_with t "bc1" = false := by
      obtain ⟨bs, hbs⟩ := starts_with_first t '1' [] t.data "1" rfl rfl h
      unfold starts_with
      rw [show ("bc1" : String).data = ['b', 'c', '1'] from rfl, hbs]
      simp [List.isPrefixOf]
    have h3 : starts_with t "3" = false := by
      obtain ⟨bs, hbs⟩ := starts_with_first t '1' [] t.data "1" rfl rfl h
      unfold starts_with
      rw [show ("3" : String).data = ['3'] from rfl, hbs]
      simp [List.isPrefixOf]
    simp [resolve_address_type, h, hb, h3]
  · intro h1 h2 h3
    simp [resolve_address_type, h1, h2, h3]

/-- C6 (witness): the four branches evaluated on concrete address texts. -/
theorem c6_prefix_resolution_witness :
    resolve_address_type false false false "bc1qxyz" = some AddressType.bip84
    ∧ resolve_address_type false false false "3QJmV3" = some AddressType.bip49
    ∧ resolve_address_type false false false "1A1zP1" = some AddressType.bip44
    ∧ resolve_address_type false false false "xpub66" = none :=
  ⟨(c6_prefix_resolution "bc1qxyz").1 (by decide),
   (c6_prefix_resolution "3QJmV3").2.1 (by decide),
   (c6_prefix_resolution "1A1zP1").2.2.1 (by decide),
   (c6_prefix_resolution "xpub66").2.2.2 (by decide) (by decide) (by decide)⟩

/-- C8 (counterexample): a match is not the only event that halts the engine
before the trial cap — with a failing elliptic-curve collaborator a concrete
run with cap 5 halts at its very first trial with an error and no match. -/
theorem c8_counterexample :
    search_permutations ops_fail ["c", "d"] "NOPE" 5 Language.english
      AddressType.bip84 2 = Except.error "fail" := rfl

/-- C8 (amended): the first ordering in enumeration order whose derived
address compares exactly equal to the target halts the search immediately and
is the result reported, with its trial index and phrase; besides a match,
only a fatal derivation error can halt the engine before the trial cap — a
not-found outcome implies every produced ordering was tried and none of the
derived addresses equalled the target. -/
theorem c8_first_match_reported {M S X D P K C A : Type} [DecidableEq A] :
    (∀ (ops : CryptoOps M S X D P K C A) language address_type path
        (target : A) pre perm rest i,
      (∀ p ∈ pre, ∃ r, derive_address ops language address_type path
        (String.intercalate " " p) = Except.ok r ∧ r ≠ some target) →
      derive_address ops language address_type path
        (String.intercalate " " perm) = Except.ok (some target) →
      search_loop ops language address_type path target (pre ++ perm :: rest) i
        = Except.ok (SearchOutcome.found (i + pre.length)
            (String.intercalate " " perm) target)) ∧
    (∀ (ops : CryptoOps M S X D P K C A) language address_type path
        (target : A) perms i,
      search_loop ops language address_type path target perms i
        = Except.ok SearchOutcome.notFound →
      ∀ perm ∈ perms, ∃ r, derive_address ops language address_type path
        (String.intercalate " " perm) = Except.ok r ∧ r ≠ some target) := by
  constructor
  · intro ops language address_type path target pre perm rest i hpre hm
    exact search_loop_first_match ops language address_type path target
      pre perm rest i hpre hm
  · intro ops language address_type path target perms i h
    exact search_loop_notFound_tried ops language address_type path target
      perms i h

/-- C8 (witness): the first conjunct evaluated on a concrete run whose first
ordering matches the target. -/
theorem c8_first_match_reported_witness :
    search_loop ops_base Language.english AddressType.bip44 0 "ADDR44"
      [["a", "b"], ["b", "a"]] 0
      = Except.ok (SearchOutcome.found 0 "a b" "ADDR44") :=
  (c8_first_match_reported (M := Nat) (S := Nat) (X := Nat) (D := Nat)
      (P := Nat) (K := Nat) (C := Nat) (A := String)).1 ops_base
    Language.english AddressType.bip44 0 "ADDR44" [] ["a", "b"] [["b", "a"]] 0
    (by intro p hp; exact absurd hp (List.not_mem_nil p)) rfl

/-- C9: the search is deterministic — for fixed inputs (collaborators, word
sequence, target, trial cap, language, scheme, derivation index) any two runs
produce the same outcome, because `search_permutations` is a pure function of
exactly these inputs (the embedding exhibits no other state, randomness or
ambient dependence, mirroring the single-threaded source loop). -/
theorem c9_deterministic {M S X D P K C A : Type} [DecidableEq A]
    (ops : CryptoOps M S X D P K C A) (words : List String) (target : A)
    (cap : Nat) (language : Language) (address_type : AddressType) (idx : Nat)
    (r₁ r₂ : Except String (SearchOutcome A))
    (h₁ : search_permutations ops words target cap language address_type idx
      = r₁)
    (h₂ : search_permutations ops words target cap language address_type idx
      = r₂) : r₁ = r₂ := by
  rw [← h₁, ← h₂]

/-- C9 (witness): two concrete runs of the same search compared. -/
theorem c9_deterministic_witness :
    (Except.ok SearchOutcome.notFound : Except String (SearchOutcome String))
      = Except.ok SearchOutcome.notFound :=
  c9_deterministic ops_skip ["a", "b"] "ADDR44" 10 Language.english
    AddressType.bip44 0 _ _ rfl rfl

/-- C4: when fewer than half of the words case-insensitively match any single
supported wordlist, `detect_language` returns no language, and the caller
(the language-selection block of `main`, with the default "english" flag
value) falls back to the default Language English, reported with the
informational `defaultFallback` marker, not as an error. -/
theorem c4_fallback_english (wl : Language → List String)
    (words : List String)
    (h : ∀ l ∈ detect_language_order,
      language_score wl words l < words.length / 2) :
    detect_language wl words = none ∧
    resolve_language wl "english" words
      = Except.ok (Language.english, LangChoice.defaultFallback) := by
  have heng : Language.english ∈ detect_language_order := by
    simp [detect_language_order]
  have hz : 0 < words.length / 2 :=
    Nat.lt_of_le_of_lt (Nat.zero_le _) (h Language.english heng)
  have hd : detect_language wl words = none :=
    detect_go_all_low wl words detect_language_order none 0 h hz
  exact ⟨hd, by simp [resolve_language, hd]⟩

/-- C4 (witness): evaluated at a concrete word list matching no wordlist. -/
theorem c4_fallback_english_witness :
    detect_language (fun _ => ["zz"]) ["a", "b"] = none ∧
    resolve_language (fun _ => ["zz"]) "english" ["a", "b"]
      = Except.ok (Language.english, LangChoice.defaultFallback) :=
  c4_fallback_english (fun _ => ["zz"]) ["a", "b"] (by decide)

/-- C5: when every input word is a case-insensitive member of the wordlist of
language `L`, and no language probed before `L` in the fixed source order
scores a perfect match, detection returns `L` as soon as it scores the
perfect match — the hypotheses constrain the wordlists only at `L` and at the
languages before it, so the result is independent of every later wordlist,
which is the extensional content of the short-circuit return. -/
theorem c5_perfect_short_circuit (wl : Language → List String)
    (words : List String) (pre post : List Language) (L : Language)
    (hsplit : detect_language_order = pre ++ L :: post)
    (hpre : ∀ p ∈ pre, language_score wl words p ≠ words.length)
    (hall : ∀ w ∈ words, word_matches (wl L) w = true) :
    detect_language wl words = some L := by
  have hL : language_score wl words L = words.length :=
    List.countP_eq_length.mpr hall
  unfold detect_language
  rw [hsplit]
  exact detect_go_first_perfect wl words pre post L hpre hL none 0

/-- C5 (witness): evaluated at a concrete word list fully contained in a
concrete English wordlist. -/
theorem c5_perfect_short_circuit_witness :
    detect_language (fun _ => ["abc", "def"]) ["DEF", "abc"]
      = some Language.english :=
  c5_perfect_short_circuit (fun _ => ["abc", "def"]) ["DEF", "abc"] []
    [Language.portuguese, Language.spanish, Language.french,
     Language.italian, Language.czech, Language.korean, Language.japanese,
     Language.simplifiedChinese, Language.traditionalChinese]
    Language.english rfl
    (by intro p hp; exact absurd hp (List.not_mem_nil p)) (by decide)

/-- C10: language detection breaks ties by fixed list position — the
languages are scored in the source order `detect_language_order`, the best
score is only replaced on a strictly greater score, so with no perfect match
the earliest language attaining the (at-least-half, positive) maximum score
is returned; and in particular a word list entirely contained in the English
wordlist always detects as English, whatever the later wordlists contain. -/
theorem c10_tie_break :
    (∀ (wl : Language → List String) (words : List String)
        (pre post : List Language) (L : Language),
      detect_language_order = pre ++ L :: post →
      (∀ l ∈ detect_language_order,
        language_score wl words l ≠ words.length) →
      (∀ p ∈ pre, language_score wl words p < language_score wl words L) →
      (∀ q ∈ post, language_score wl words q ≤ language_score wl words L) →
      0 < language_score wl words L →
      words.length / 2 ≤ language_score wl words L →
      detect_language wl words = some L) ∧
    (∀ (wl : Language → List String) (words : List String),
      (∀ w ∈ words, word_matches (wl Language.english) w = true) →
      detect_language wl words = some Language.english) := by
  constructor
  · intro wl words pre post L hsplit hnp hpre hpost hpos hhalf
    have hLne : language_score wl words L ≠ words.length :=
      hnp L (by rw [hsplit]; simp)
    have hpostne : ∀ q ∈ post, language_score wl words q ≠ words.length := by
      intro q hq
      exact hnp q (by rw [hsplit]; simp [hq])
    have hprene : ∀ p ∈ pre, language_score wl words p ≠ words.length := by
      intro p hp
      exact hnp p (by rw [hsplit]; simp [hp])
    unfold detect_language
    rw [hsplit]
    exact detect_go_climb wl words L post hLne hpost hpostne hhalf
      pre none 0 hpos hpre hprene
  · intro wl words hall
    have hL : language_score wl words Language.english = words.length :=
      List.countP_eq_length.mpr hall
    exact detect_go_perfect wl words Language.english _ none 0 hL

/-- C10 (witness): a concrete tie between English and Portuguese resolved to
English, and a concrete all-English word list detected as English. -/
theorem c10_tie_break_witness :
    detect_language
      (fun l => match l with
        | Language.english => ["aa"]
        | Language.portuguese => ["aa"]
        | _ => []) ["aa", "bb"] = some Language.english ∧
    detect_language (fun _ => ["xx"]) ["XX"] = some Language.english :=
  ⟨c10_tie_break.1
      (fun l => match l with
        | Language.english => ["aa"]
        | Language.portuguese => ["aa"]
        | _ => []) ["aa", "bb"] []
      [Language.portuguese, Language.spanish, Language.french,
       Language.italian, Language.czech, Language.korean, Language.japanese,
       Language.simplifiedChinese, Language.traditionalChinese]
      Language.english rfl (by decide)
      (by intro p hp; exact absurd hp (List.not_mem_nil p))
      (by decide) (by decide) (by decide),
   c10_tie_break.2 (fun _ => ["xx"]) ["XX"] (by decide)⟩

/-- C3: the engine considers exactly `min(n!, trial_cap)` orderings for an
input word sequence of length `n` — so exactly `n!` when the cap is at least
`n!` — and these are `n!` pairwise-distinct orderings of the input positions
(the enumeration of the position indices is duplicate-free and the word
enumeration is its image); and once every produced ordering has been tried
without a match, the search stops and returns the not-found outcome. -/
theorem c3_enumeration_count {M S X D P K C A : Type} [DecidableEq A] :
    (∀ (words : List String) (cap : Nat),
      ((lexPerms words).take cap).length
        = min (Nat.factorial words.length) cap) ∧
    (∀ (words : List String),
      (lexPerms (List.range words.length)).Nodup ∧
      lexPerms words = (lexPerms (List.range words.length)).map
        (fun p => p.map fun i => words.getD i "")) ∧
    (∀ (ops : CryptoOps M S X D P K C A) words (target : A) cap language
        address_type idx path,
      ops.path_from_str (address_type.derivation_path idx) = Except.ok path →
      (∀ perm ∈ (lexPerms words).take cap, ∃ r,
        derive_address ops language address_type path
          (String.intercalate " " perm) = Except.ok r ∧ r ≠ some target) →
      search_permutations ops words target cap language address_type idx
        = Except.ok SearchOutcome.notFound) := by
  refine ⟨?_, ?_, ?_⟩
  · intro words cap
    rw [List.length_take]
    unfold lexPerms
    rw [lexPermsAux_length words.length words rfl]
    exact min_comm cap _
  · intro words
    refine ⟨?_, lexPerms_eq_map_range words⟩
    exact lexPermsAux_nodup (List.range words.length).length
      (List.range words.length) rfl (List.nodup_range words.length)
  · intro ops words target cap language address_type idx path hpath hmiss
    unfold search_permutations
    rw [hpath]
    exact search_loop_all_miss ops language address_type path target _ 0 hmiss

/-- C3 (witness): the conjuncts evaluated on concrete runs — a 3-word input
capped at 10 yields min(3!, 10) = 6 orderings, and a concrete exhausted run
returns not-found. -/
theorem c3_enumeration_count_witness :
    ((lexPerms ["a", "b", "c"]).take 10).length = min (Nat.factorial 3) 10 ∧
    search_permutations ops_base ["a", "b"] "NOPE" 10 Language.english
      AddressType.bip44 0 = Except.ok SearchOutcome.notFound :=
  ⟨(c3_enumeration_count (M := Nat) (S := Nat) (X := Nat) (D := Nat)
      (P := Nat) (K := Nat) (C := Nat) (A := String)).1 ["a", "b", "c"] 10,
   (c3_enumeration_count (M := Nat) (S := Nat) (X := Nat) (D := Nat)
      (P := Nat) (K := Nat) (C := Nat) (A := String)).2.2 ops_base
     ["a", "b"] "NOPE" 10 Language.english AddressType.bip44 0 0 rfl
     (by intro perm hp
         fin_cases hp <;> exact ⟨some "ADDR44", rfl, by decide⟩)⟩

/-- C7: whenever the pipeline outputs an address for a validated candidate
mnemonic, that address equals the reference composition of the specification:
the seed is derived from the parsed mnemonic with the empty passphrase, the
master key from the seed for mainnet, the child key by walking the parsed
path, and the address is `reference_address` (P2PKH of the public key for
legacy, P2SH-wrapped-P2WPKH of the compressed key for wrapped segwit, P2WPKH
of the compressed key for native segwit) applied to the child public key;
moreover the path text handed to the path parser follows the template
`m/{purpose}h/0h/0h/0/{index}` with purpose 44, 49 or 84 for the scheme and
the caller-supplied index. -/
theorem c7_pipeline_composition {M S X D P K C A : Type} :
    (∀ (ops : CryptoOps M S X D P K C A) (language : Language)
        (address_type : AddressType) (path : D) (phrase : String) (a : A),
      derive_address ops language address_type path phrase
        = Except.ok (some a) →
      ∃ mnemonic master_xprv child_xprv,
        ops.parse_in_normalized language phrase = some mnemonic ∧
        ops.new_master Network.bitcoin (ops.to_seed mnemonic "")
          = Except.ok master_xprv ∧
        ops.derive_priv master_xprv path = Except.ok child_xprv ∧
        reference_address ops address_type
          (ops.public_key (ops.private_key child_xprv)) = Except.ok a) ∧
    (∀ (address_type : AddressType) (idx : Nat),
      address_type.derivation_path idx
        = spec_path_template (scheme_purpose address_type) idx) := by
  constructor
  · intro ops language address_type path phrase a h
    unfold derive_address at h
    cases hp : ops.parse_in_normalized language phrase with
    | none => rw [hp] at h; exact absurd h (by simp)
    | some m =>
      rw [hp] at h
      dsimp only at h
      cases hm : ops.new_master Network.bitcoin (ops.to_seed m "") with
      | error e => rw [hm] at h; exact absurd h (by simp)
      | ok master_xprv =>
        rw [hm] at h
        dsimp only at h
        cases hd : ops.derive_priv master_xprv path with
        | error e => rw [hd] at h; exact absurd h (by simp)
        | ok child_xprv =>
          rw [hd] at h
          dsimp only at h
          refine ⟨m, master_xprv, child_xprv, rfl, hm, hd, ?_⟩
          cases address_type with
          | bip44 =>
            simp only [Except.ok.injEq, Option.some.injEq] at h
            simp [reference_address, h]
          | bip49 =>
            cases hc : ops.from_slice (ops.serialize
                (ops.public_key (ops.private_key child_xprv))) with
            | error e => rw [hc] at h; exact absurd h (by simp)
            | ok compressed =>
              rw [hc] at h
              simp only [Except.ok.injEq, Option.some.injEq] at h
              simp [reference_address, hc, Except.map, h]
          | bip84 =>
            cases hc : ops.from_slice (ops.serialize
                (ops.public_key (ops.private_key child_xprv))) with
            | error e => rw [hc] at h; exact absurd h (by simp)
            | ok compressed =>
              rw [hc] at h
              simp only [Except.ok.injEq, Option.some.injEq] at h
              simp [reference_address, hc, Except.map, h]
  · intro address_type idx
    cases address_type <;> rfl

/-- C7 (witness): the composition exhibited on a concrete successful trial of
the wrapped-segwit pipeline. -/
theorem c7_pipeline_composition_witness :
    ∃ mnemonic master_xprv child_xprv,
      ops_base.parse_in_normalized Language.english "w x" = some mnemonic ∧
      ops_base.new_master Network.bitcoin (ops_base.to_seed mnemonic "")
        = Except.ok master_xprv ∧
      ops_base.derive_priv master_xprv 0 = Except.ok child_xprv ∧
      reference_address ops_base AddressType.bip49
        (ops_base.public_key (ops_base.private_key child_xprv))
        = Except.ok "ADDR49" :=
  (c7_pipeline_composition (M := Nat) (S := Nat) (X := Nat) (D := Nat)
      (P := Nat) (K := Nat) (C := Nat) (A := String)).1 ops_base
    Language.english AddressType.bip49 0 "w x" "ADDR49" rfl

end BruteForce
